import Mathlib

/-!
# Verification of the geode-cli-installer core

A shallow embedding, over `List Char`, of the core of the
`geode-cli-installer-rs` repository:

* the VDF-like recursive text parser (`src/utils/steam_game_finder.rs`,
  `parse_vdf_recursive` / `parse_vdf_file`),
* the Steam library discovery functions (`initialize_library_folders`,
  `find_game_by_appid`, `find_proton_prefix`, `get_game_info`),
* the Wine registry patcher (`src/utils/geode_installer.rs`,
  `ensure_dll_override`, `add_dll_overrides_section`,
  `add_dll_entry_to_section`, `patch_wine_registry`).

Rust strings are modelled as `List Char`; byte positions of the original
become character positions (all structural markers searched for are ASCII,
so occurrence boundaries agree).  The filesystem is modelled by an explicit
environment of two functions (`pathExists`, `readFile`).  The patcher's
two nondeterministic clock reads (`current_timestamp` is called once for
the decimal field and a second time, through `current_hex_timestamp`, for
the hexadecimal field) are two explicit `Nat` parameters.
-/

/-- `char::is_whitespace` of Rust: the Unicode `White_Space` property,
spelled out code point by code point. -/
def rustWs (c : Char) : Bool :=
  decide ((9 ≤ c.toNat ∧ c.toNat ≤ 13) ∨ c.toNat = 32 ∨ c.toNat = 133 ∨
    c.toNat = 160 ∨ c.toNat = 5760 ∨ (8192 ≤ c.toNat ∧ c.toNat ≤ 8202) ∨
    c.toNat = 8232 ∨ c.toNat = 8233 ∨ c.toNat = 8239 ∨ c.toNat = 8287 ∨
    c.toNat = 12288)

/-- The whitespace-skipping loops of `parse_vdf_recursive`
(`while *pos < chars.len() && chars[*pos].is_whitespace() { *pos += 1 }`). -/
def skipWs : List Char → List Char
  | [] => []
  | c :: t => if rustWs c then skipWs t else c :: t

/-- The quoted-token reading loops of `parse_vdf_recursive`: read characters
up to the next `"`; the closing quote (when present) is consumed. -/
def readTok : List Char → List Char × List Char
  | [] => ([], [])
  | c :: t =>
    if c = '"' then ([], t)
    else
      let p := readTok t
      (c :: p.1, p.2)

/-- The comment loop of `parse_vdf_recursive`
(`while *pos < chars.len() && chars[*pos] != '\n' { *pos += 1 }`):
the newline itself is not consumed. -/
def dropUntilNl : List Char → List Char
  | [] => []
  | c :: t => if c = '\n' then c :: t else dropUntilNl t

/-- The parser's result map (`HashMap<String, String>`), modelled as an
association list without duplicate keys; insertion order is the order in
which keys were first inserted. -/
abbrev VdfMap := List (List Char × List Char)

/-- `HashMap::insert`: overwrite the binding when the key is present,
otherwise add a new binding. -/
def mapInsert : VdfMap → List Char → List Char → VdfMap
  | [], k, v => [(k, v)]
  | (k', v') :: t, k, v =>
    if k' = k then (k, v) :: t else (k', v') :: mapInsert t k v

/-- `HashMap::get`. -/
def mapLookup : VdfMap → List Char → Option (List Char)
  | [], _ => none
  | (k', v) :: t, k => if k' = k then some v else mapLookup t k

/-- The dotted key built by `parse_vdf_recursive`:
`if prefix.is_empty() { key } else { format!("{}.{}", prefix, key) }`. -/
def fullKey (pfx key : List Char) : List Char :=
  if pfx = [] then key else pfx ++ '.' :: key

/-- `parse_vdf_recursive`, fuel-indexed.  A call processes the remaining
input (the suffix of the document from the mutable cursor `*pos` on) and
returns the updated map together with the input left unconsumed when the
call returns (a `}` closing the current recursion level, or end of input).
Every loop iteration of the Rust code consumes at least one character, so
any fuel exceeding the input length gives the exact behaviour
(`parseVdfF_fuel_irrel` below). -/
def parseVdfF : Nat → List Char → VdfMap → List Char → VdfMap × List Char
  | 0, l, m, _ => (m, l)
  | Nat.succ f, l, m, pfx =>
    match skipWs l with
    | [] => (m, [])
    | c :: t =>
      if c = '/' ∧ t.head? = some '/' then
        parseVdfF f (dropUntilNl t) m pfx
      else if c = '}' then (m, t)
      else if c = '{' then parseVdfF f t m pfx
      else if c = '"' then
        if (skipWs (readTok t).2).head? = some '"' then
          parseVdfF f (readTok (skipWs (readTok t).2).tail).2
            (mapInsert m (fullKey pfx (readTok t).1)
              (readTok (skipWs (readTok t).2).tail).1) pfx
        else if (skipWs (readTok t).2).head? = some '{' then
          parseVdfF f
            (parseVdfF f (skipWs (readTok t).2).tail m
              (fullKey pfx (readTok t).1)).2
            (parseVdfF f (skipWs (readTok t).2).tail m
              (fullKey pfx (readTok t).1)).1 pfx
        else parseVdfF f (skipWs (readTok t).2) m pfx
      else parseVdfF f t m pfx

/-- The in-memory part of `parse_vdf_file`: run the recursive parser on the
whole document with empty map and empty key prefix. -/
def parse_vdf (l : List Char) : VdfMap :=
  (parseVdfF (l.length + 1) l [] []).1

/-- `str::find` for a string pattern: index of the first occurrence of
`pat` as a contiguous substring, if any. -/
def findSub (pat : List Char) : List Char → Option Nat
  | [] => if pat.isPrefixOf ([] : List Char) then some 0 else none
  | c :: t =>
    if pat.isPrefixOf (c :: t) then some 0 else (findSub pat t).map (· + 1)

/-- `str::contains` for a string pattern. -/
def containsSub (s pat : List Char) : Bool := (findSub pat s).isSome

/-- Number of (possibly overlapping) occurrences of `pat` in a string:
the number of suffix positions at which `pat` is a prefix. -/
def countSub (pat : List Char) : List Char → Nat
  | [] => if pat.isPrefixOf ([] : List Char) then 1 else 0
  | c :: t => (if pat.isPrefixOf (c :: t) then 1 else 0) + countSub pat t

/-- The override entry key searched for by `ensure_dll_override`. -/
def keyPat : List Char := "\"xinput1_4\"=".data

/-- The `SECTION` constant of `ensure_dll_override`. -/
def sectionStr : List Char := "[Software\\\\Wine\\\\DllOverrides]".data

/-- The `ENTRY` constant of `ensure_dll_override`. -/
def entryStr : List Char := "\"xinput1_4\"=\"native,builtin\"".data

/-- The next-section marker `"\n["` searched for by
`add_dll_entry_to_section`. -/
def nlBracket : List Char := "\n[".data

/-- One digit of Rust's numeric formatting (`{}` and `{:x}`): decimal
digits then lowercase letters. -/
def hexDigitChar (d : Nat) : Char :=
  if d < 10 then Char.ofNat (48 + d) else Char.ofNat (87 + d)

/-- Rust's integer formatting to base `b` (`format!("{}", n)` for `b = 10`,
`format!("{:x}", n)` for `b = 16`): most significant digit first, no
leading zeroes, and `0` prints as `"0"`. -/
def renderBase (b n : Nat) : List Char :=
  if n = 0 then ['0'] else ((Nat.digits b n).map hexDigitChar).reverse

/-- Numeric value of a digit character produced by `hexDigitChar`. -/
def hexDigitVal (c : Char) : Nat :=
  if 97 ≤ c.toNat then c.toNat - 87 else c.toNat - 48

/-- Read a base-`b` numeral back into a number (the reader's view of what
instant a printed timestamp denotes). -/
def decodeBase (b : Nat) (cs : List Char) : Nat :=
  Nat.ofDigits b ((cs.map hexDigitVal).reverse)

/-- The block appended by `add_dll_overrides_section`:
`"\n\n[Software\\\\Wine\\\\DllOverrides] {}\n#time={}\n\"xinput1_4\"=\"native,builtin\"\n"`.
The decimal field renders `ts`, the first `SystemTime::now()` read
(`current_timestamp()`); the hexadecimal field renders `hts`, a second,
independent clock read (`current_hex_timestamp()` calls
`current_timestamp()` again).  Nothing ties the two reads together. -/
def blockFor (ts hts : Nat) : List Char :=
  '\n' :: '\n' :: (sectionStr ++ ' ' :: (renderBase 10 ts ++
    '\n' :: ("#time=".data ++ (renderBase 16 hts ++
      '\n' :: (entryStr ++ ['\n'])))))

/-- `add_dll_overrides_section`, with its two separate clock reads made
explicit. -/
def add_dll_overrides_section (ts hts : Nat) (content : List Char) :
    List Char :=
  content ++ blockFor ts hts

/-- `add_dll_entry_to_section`: find the section header, then the next
`"\n["` marker after it (or end of document), and splice the entry line
in at that position. -/
def add_dll_entry_to_section (content sec entry : List Char) : List Char :=
  match findSub sec content with
  | none => content
  | some sectionPos =>
    let searchStart := sectionPos + sec.length
    let insertPos :=
      match findSub nlBracket (content.drop searchStart) with
      | some p => searchStart + p
      | none => content.length
    let entryWithNewline :=
      if insertPos = content.length then '\n' :: (entry ++ ['\n'])
      else entry ++ ['\n']
    content.take insertPos ++ entryWithNewline ++ content.drop insertPos

/-- `ensure_dll_override`, with the two clock reads used by the
section-synthesis branch made explicit. -/
def ensure_dll_override (ts hts : Nat) (content : List Char) : List Char :=
  if containsSub content keyPat then content
  else if containsSub content sectionStr = false then
    add_dll_overrides_section ts hts content
  else add_dll_entry_to_section content sectionStr entryStr

/-- Result of `patch_wine_registry` on the stored `user.reg` file:
either the NotFound failure, or the full content passed to `fs::write`
(the write is executed unconditionally whenever the file exists). -/
inductive RegPatchResult : Type
  | notFound : RegPatchResult
  | written : List Char → RegPatchResult
deriving DecidableEq

/-- `patch_wine_registry`: fail when `user.reg` does not exist; otherwise
read it, apply `ensure_dll_override` in memory and write the result back. -/
def patch_wine_registry (ts hts : Nat) (stored : Option (List Char)) :
    RegPatchResult :=
  match stored with
  | none => RegPatchResult.notFound
  | some c => RegPatchResult.written (ensure_dll_override ts hts c)

/-- Whether `patch_wine_registry` performs a `fs::write` call. -/
def patchWrites (ts hts : Nat) (stored : Option (List Char)) : Bool :=
  match patch_wine_registry ts hts stored with
  | RegPatchResult.notFound => false
  | RegPatchResult.written _ => true

/-- The filesystem as seen by the discovery functions: existence probing
and whole-file reading. -/
structure Env where
  pathExists : List Char → Bool
  readFile : List Char → Option (List Char)

/-- `PathBuf::join` on the string form of paths. -/
def pjoin (p q : List Char) : List Char := p ++ '/' :: q

/-- `parse_vdf_file`: missing file or unreadable file parse to the empty
map; otherwise parse the content. -/
def parse_vdf_file (env : Env) (path : List Char) : VdfMap :=
  if env.pathExists path = false then []
  else
    match env.readFile path with
    | none => []
    | some c => parse_vdf c

/-- The duplicate-removal loop at the end of `initialize_library_folders`
(`HashSet` of already seen path strings, first occurrence kept). -/
def dedupFirst (seen : List (List Char)) : List (List Char) → List (List Char)
  | [] => []
  | p :: t => if p ∈ seen then dedupFirst seen t else p :: dedupFirst (p :: seen) t

/-- `initialize_library_folders`: no root gives the empty list; otherwise
start from `{root}/steamapps`, add the `steamapps` directory of every
existing library listed under a `.path` key of `libraryfolders.vdf`, and
deduplicate by path string, keeping first occurrences. -/
def initialize_library_folders (env : Env) (steam_root : Option (List Char)) :
    List (List Char) :=
  match steam_root with
  | none => []
  | some root =>
    let folders0 := [pjoin root "steamapps".data]
    let library_file :=
      pjoin (pjoin root "steamapps".data) "libraryfolders.vdf".data
    let folders :=
      if env.pathExists library_file then
        (parse_vdf_file env library_file).foldl
          (fun acc kv =>
            if (("libraryfolders.".data).isPrefixOf kv.1
                  && containsSub kv.1 ".path".data)
                || containsSub kv.1 ".path".data then
              let path := pjoin kv.2 "steamapps".data
              if env.pathExists path then acc ++ [path] else acc
            else acc)
          folders0
      else folders0
    dedupFirst [] folders

/-- `find_game_by_appid`: scan the library folders in order; when a
library's `appmanifest_{app_id}.acf` exists, read its
`AppState.installdir` key, and when `{library}/common/{installdir}`
exists return it together with the owning library. -/
def find_game_by_appid (env : Env) :
    List (List Char) → List Char → Option (List Char × List Char)
  | [], _ => none
  | library_path :: rest, app_id =>
    let acf_file :=
      pjoin library_path ("appmanifest_".data ++ (app_id ++ ".acf".data))
    if env.pathExists acf_file then
      match mapLookup (parse_vdf_file env acf_file) "AppState.installdir".data with
      | some install_dir =>
        let game_path := pjoin (pjoin library_path "common".data) install_dir
        if env.pathExists game_path then some (game_path, library_path)
        else find_game_by_appid env rest app_id
      | none => find_game_by_appid env rest app_id
    else find_game_by_appid env rest app_id

/-- The fallback loop of `find_proton_prefix`: scan all library folders
for an existing `{library}/compatdata/{app_id}/pfx`. -/
def findPfxScan (env : Env) : List (List Char) → List Char → Option (List Char)
  | [], _ => none
  | lib_path :: rest, app_id =>
    let compatdata_path :=
      pjoin (pjoin (pjoin lib_path "compatdata".data) app_id) "pfx".data
    if env.pathExists compatdata_path then some compatdata_path
    else findPfxScan env rest app_id

/-- `find_proton_prefix`: check the preferred library first when one is
supplied, then fall back to scanning all library folders in order. -/
def find_proton_prefix (env : Env) (folders : List (List Char))
    (app_id : List Char) (library_path : Option (List Char)) :
    Option (List Char) :=
  match library_path with
  | some lib_path =>
    let compatdata_path :=
      pjoin (pjoin (pjoin lib_path "compatdata".data) app_id) "pfx".data
    if env.pathExists compatdata_path then some compatdata_path
    else findPfxScan env folders app_id
  | none => findPfxScan env folders app_id

/-- The `GameInfo` result structure of `get_game_info`. -/
structure GameInfo where
  app_id : List Char
  game_path : Option (List Char)
  proton_prefix : Option (List Char)
  library_path : Option (List Char)
  found : Bool
deriving DecidableEq

/-- `get_game_info`: compose the install lookup with the
owning-library-preferred prefix lookup; `found` is set exactly when the
install lookup succeeds. -/
def get_game_info (env : Env) (folders : List (List Char))
    (app_id : List Char) : GameInfo :=
  match find_game_by_appid env folders app_id with
  | none => ⟨app_id, none, none, none, false⟩
  | some (game_path, library_path) =>
    ⟨app_id, some game_path,
      (match find_proton_prefix env folders app_id (some library_path) with
       | some proton => some proton
       | none => none),
      some library_path, true⟩

/-- Abstract syntax of well-formed VDF documents, with the interleaved
whitespace made explicit so that the well-formedness theorem quantifies
over every well-formed concrete text: `nil w` is trailing whitespace,
`consStr w1 k w2 v rest` a quoted key/value pair, and
`consObj w1 k w2 sub rest` a quoted key opening a braced sub-document. -/
inductive VdfDoc : Type
  | nil : List Char → VdfDoc
  | consStr : List Char → List Char → List Char → List Char → VdfDoc → VdfDoc
  | consObj : List Char → List Char → List Char → VdfDoc → VdfDoc → VdfDoc

/-- The concrete text of a document: quotes around keys and values,
braces around sub-documents, the recorded whitespace in between. -/
def render : VdfDoc → List Char
  | VdfDoc.nil w => w
  | VdfDoc.consStr w1 k w2 v rest =>
      w1 ++ '"' :: (k ++ '"' :: (w2 ++ '"' :: (v ++ '"' :: render rest)))
  | VdfDoc.consObj w1 k w2 sub rest =>
      w1 ++ '"' :: (k ++ '"' :: (w2 ++ '{' :: (render sub ++ '}' :: render rest)))

/-- All characters of `w` are whitespace. -/
def wsOnly (w : List Char) : Bool := w.all rustWs

/-- A key or value token: no embedded quote character. -/
def noQuote (s : List Char) : Bool := s.all (fun c => c != '"')

/-- Well-formedness: whitespace fields hold only whitespace, key and value
tokens hold no quote. -/
def docOk : VdfDoc → Bool
  | VdfDoc.nil w => wsOnly w
  | VdfDoc.consStr w1 k w2 v rest =>
      wsOnly w1 && noQuote k && wsOnly w2 && noQuote v && docOk rest
  | VdfDoc.consObj w1 k w2 sub rest =>
      wsOnly w1 && noQuote k && wsOnly w2 && docOk sub && docOk rest

/-- Modelled from the spec: the mapping a well-formed document denotes —
each quoted value paired with its '.'-joined dotted key path, read in
document order, a later duplicate key overwriting the earlier value. -/
def specDottedMap (m : VdfMap) (pfx : List Char) : VdfDoc → VdfMap
  | VdfDoc.nil _ => m
  | VdfDoc.consStr _ k _ v rest =>
      specDottedMap (mapInsert m (fullKey pfx k) v) pfx rest
  | VdfDoc.consObj _ k _ sub rest =>
      specDottedMap (specDottedMap m (fullKey pfx k) sub) pfx rest

theorem skipWs_length (l : List Char) : (skipWs l).length ≤ l.length := by
  induction l with
  | nil => simp [skipWs]
  | cons c t ih =>
    simp only [skipWs]
    split
    · exact Nat.le_trans ih (Nat.le_succ _)
    · exact Nat.le_refl _

theorem dropUntilNl_length (l : List Char) : (dropUntilNl l).length ≤ l.length := by
  induction l with
  | nil => simp [dropUntilNl]
  | cons c t ih =>
    simp only [dropUntilNl]
    split
    · exact Nat.le_refl _
    · exact Nat.le_trans ih (Nat.le_succ _)

theorem readTok_snd_length (l : List Char) : (readTok l).2.length ≤ l.length := by
  induction l with
  | nil => simp [readTok]
  | cons c t ih =>
    simp only [readTok]
    split
    · exact Nat.le_succ _
    · exact Nat.le_trans ih (Nat.le_succ _)

theorem parseVdfF_nil (f : Nat) (m : VdfMap) (pfx : List Char) :
    parseVdfF f [] m pfx = (m, []) := by
  cases f with
  | zero => rfl
  | succ f => rfl

/-- Every call of the recursive parser leaves a remainder no longer than
its input. -/
theorem parseVdfF_rem_length (f : Nat) :
    ∀ (l : List Char) (m : VdfMap) (pfx : List Char),
      (parseVdfF f l m pfx).2.length ≤ l.length := by
  induction f with
  | zero => intro l m pfx; exact Nat.le_refl _
  | succ f ih =>
    intro l m pfx
    have hsw : (skipWs l).length ≤ l.length := skipWs_length l
    rw [parseVdfF]
    split
    · simp
    · rename_i c t h
      rw [h] at hsw
      simp only [List.length_cons] at hsw
      have hrt : (readTok t).2.length ≤ t.length := readTok_snd_length t
      have hsw2 : (skipWs (readTok t).2).length ≤ (readTok t).2.length :=
        skipWs_length _
      have htl : (skipWs (readTok t).2).tail.length ≤
          (skipWs (readTok t).2).length := by
        cases skipWs (readTok t).2 <;> simp
      have hrtl := readTok_snd_length (skipWs (readTok t).2).tail
      split_ifs with h1 h2 h3 h4 h5 h6
      · calc (parseVdfF f (dropUntilNl t) m pfx).2.length
            ≤ (dropUntilNl t).length := ih _ _ _
          _ ≤ t.length := dropUntilNl_length t
          _ ≤ l.length := by omega
      · simp only; omega
      · exact Nat.le_trans (ih _ _ _) (by omega)
      · exact Nat.le_trans (ih _ _ _) (by omega)
      · have hh := ih (skipWs (readTok t).2).tail m (fullKey pfx (readTok t).1)
        exact Nat.le_trans (ih _ _ _) (by omega)
      · exact Nat.le_trans (ih _ _ _) (by omega)
      · exact Nat.le_trans (ih _ _ _) (by omega)

theorem parseVdfF_succ_skipNil (f : Nat) (l : List Char) (m : VdfMap)
    (pfx : List Char) (h : skipWs l = []) :
    parseVdfF (f + 1) l m pfx = (m, []) := by
  rw [parseVdfF, h]

theorem parseVdfF_succ_cons (f : Nat) (l : List Char) (m : VdfMap)
    (pfx : List Char) (c : Char) (t : List Char) (h : skipWs l = c :: t) :
    parseVdfF (f + 1) l m pfx =
      (if c = '/' ∧ t.head? = some '/' then
        parseVdfF f (dropUntilNl t) m pfx
      else if c = '}' then (m, t)
      else if c = '{' then parseVdfF f t m pfx
      else if c = '"' then
        if (skipWs (readTok t).2).head? = some '"' then
          parseVdfF f (readTok (skipWs (readTok t).2).tail).2
            (mapInsert m (fullKey pfx (readTok t).1)
              (readTok (skipWs (readTok t).2).tail).1) pfx
        else if (skipWs (readTok t).2).head? = some '{' then
          parseVdfF f
            (parseVdfF f (skipWs (readTok t).2).tail m
              (fullKey pfx (readTok t).1)).2
            (parseVdfF f (skipWs (readTok t).2).tail m
              (fullKey pfx (readTok t).1)).1 pfx
        else parseVdfF f (skipWs (readTok t).2) m pfx
      else parseVdfF f t m pfx) := by
  rw [parseVdfF, h]

theorem parseVdfF_fuel_irrel_aux (n : Nat) :
    ∀ l : List Char, l.length ≤ n → ∀ (f g : Nat) (m : VdfMap)
      (pfx : List Char), l.length < f → l.length < g →
      parseVdfF f l m pfx = parseVdfF g l m pfx := by
  induction n with
  | zero =>
    intro l hl f g m pfx hf hg
    have hnil : l = [] := List.eq_nil_of_length_eq_zero (Nat.le_zero.mp hl)
    subst hnil
    rw [parseVdfF_nil, parseVdfF_nil]
  | succ n ih =>
    intro l hl f g m pfx hf hg
    cases f with
    | zero => omega
    | succ f =>
      cases g with
      | zero => omega
      | succ g =>
        cases h : skipWs l with
        | nil =>
          rw [parseVdfF_succ_skipNil f l m pfx h,
            parseVdfF_succ_skipNil g l m pfx h]
        | cons c t =>
          have hsw := skipWs_length l
          rw [h] at hsw
          simp only [List.length_cons] at hsw
          have hdu := dropUntilNl_length t
          have hrt := readTok_snd_length t
          have hsw2 := skipWs_length (readTok t).2
          have htl : (skipWs (readTok t).2).tail.length ≤
              (skipWs (readTok t).2).length := by
            cases skipWs (readTok t).2 <;> simp
          have hrtl := readTok_snd_length (skipWs (readTok t).2).tail
          rw [parseVdfF_succ_cons f l m pfx c t h,
            parseVdfF_succ_cons g l m pfx c t h]
          split_ifs with h1 h2 h3 h4 h5 h6
          · exact ih _ (by omega) _ _ _ _ (by omega) (by omega)
          · rfl
          · exact ih _ (by omega) _ _ _ _ (by omega) (by omega)
          · exact ih _ (by omega) _ _ _ _ (by omega) (by omega)
          · have hinner : parseVdfF f (skipWs (readTok t).2).tail m
                (fullKey pfx (readTok t).1) =
                parseVdfF g (skipWs (readTok t).2).tail m
                (fullKey pfx (readTok t).1) :=
              ih _ (by omega) _ _ _ _ (by omega) (by omega)
            rw [hinner]
            have hrem := parseVdfF_rem_length g (skipWs (readTok t).2).tail m
              (fullKey pfx (readTok t).1)
            exact ih _ (by omega) _ _ _ _ (by omega) (by omega)
          · exact ih _ (by omega) _ _ _ _ (by omega) (by omega)
          · exact ih _ (by omega) _ _ _ _ (by omega) (by omega)

/-- Fuel irrelevance: any fuel exceeding the input length gives the same
result — the Rust recursion, whose every loop iteration advances the
cursor, terminates with exactly this behaviour. -/
theorem parseVdfF_fuel_irrel (l : List Char) (f g : Nat) (m : VdfMap)
    (pfx : List Char) (hf : l.length < f) (hg : l.length < g) :
    parseVdfF f l m pfx = parseVdfF g l m pfx :=
  parseVdfF_fuel_irrel_aux l.length l (Nat.le_refl _) f g m pfx hf hg

theorem skipWs_cons_not_ws (c : Char) (t : List Char) (h : rustWs c = false) :
    skipWs (c :: t) = c :: t := by
  simp [skipWs, h]

theorem readTok_no_quote (t : List Char) (h : '"' ∉ t) : readTok t = (t, []) := by
  induction t with
  | nil => rfl
  | cons c r ih =>
    simp only [List.mem_cons, not_or] at h
    simp [readTok, Ne.symm h.1, ih h.2]

theorem parseVdfF_stray_close (f : Nat) (rest : List Char) (m : VdfMap)
    (pfx : List Char) : parseVdfF (f + 1) ('}' :: rest) m pfx = (m, rest) := by
  have hs : skipWs ('}' :: rest) = '}' :: rest :=
    skipWs_cons_not_ws _ _ (by decide)
  rw [parseVdfF_succ_cons f _ m pfx '}' rest hs,
    if_neg (by rintro ⟨hc, _⟩; exact absurd hc (by decide)), if_pos rfl]

theorem parseVdfF_unterminated (f : Nat) (t : List Char) (m : VdfMap)
    (pfx : List Char) (h : '"' ∉ t) :
    parseVdfF (f + 1) ('"' :: t) m pfx = (m, []) := by
  have hs : skipWs ('"' :: t) = '"' :: t :=
    skipWs_cons_not_ws _ _ (by decide)
  rw [parseVdfF_succ_cons f _ m pfx '"' t hs,
    if_neg (by rintro ⟨hc, _⟩; exact absurd hc (by decide)),
    if_neg (by decide), if_neg (by decide), if_pos rfl,
    readTok_no_quote t h]
  simp [skipWs, parseVdfF_nil]

theorem parseVdfF_skip_other (f : Nat) (c : Char) (t : List Char) (m : VdfMap)
    (pfx : List Char) (hws : rustWs c = false)
    (hcom : ¬(c = '/' ∧ t.head? = some '/'))
    (h1 : c ≠ '}') (h2 : c ≠ '{') (h3 : c ≠ '"') :
    parseVdfF (f + 1) (c :: t) m pfx = parseVdfF f t m pfx := by
  have hs : skipWs (c :: t) = c :: t := skipWs_cons_not_ws _ _ hws
  rw [parseVdfF_succ_cons f _ m pfx c t hs, if_neg hcom, if_neg h1, if_neg h2,
    if_neg h3]

/-- C4: the parser is total with no failure channel.  Fuel beyond the
input length is irrelevant (the recursion terminates and its result is
well defined on every input); a stray `}` ends the current recursion
level returning the pairs read so far; an unterminated quote silently
consumes to end of input, returning the map as consumed before that
point; any other unexpected character is skipped. -/
theorem parser_total_and_lenient :
    (∀ (l : List Char) (f g : Nat) (m : VdfMap) (pfx : List Char),
        l.length < f → l.length < g →
        parseVdfF f l m pfx = parseVdfF g l m pfx) ∧
    (∀ (f : Nat) (rest : List Char) (m : VdfMap) (pfx : List Char),
        parseVdfF (f + 1) ('}' :: rest) m pfx = (m, rest)) ∧
    (∀ (f : Nat) (t : List Char) (m : VdfMap) (pfx : List Char),
        '"' ∉ t → parseVdfF (f + 1) ('"' :: t) m pfx = (m, [])) ∧
    (∀ (f : Nat) (c : Char) (t : List Char) (m : VdfMap) (pfx : List Char),
        rustWs c = false → ¬(c = '/' ∧ t.head? = some '/') →
        c ≠ '}' → c ≠ '{' → c ≠ '"' →
        parseVdfF (f + 1) (c :: t) m pfx = parseVdfF f t m pfx) :=
  ⟨fun l f g m pfx hf hg => parseVdfF_fuel_irrel l f g m pfx hf hg,
   parseVdfF_stray_close, parseVdfF_unterminated, parseVdfF_skip_other⟩

/-- Witness for `parser_total_and_lenient` at concrete inputs. -/
theorem parser_total_and_lenient_witness :
    parseVdfF 3 ['a', 'b'] [] [] = parseVdfF 9 ['a', 'b'] [] [] ∧
    parseVdfF 4 ('}' :: ['a']) [] [] = ([], ['a']) ∧
    parseVdfF 4 ('"' :: ['x', 'y']) [] [] = ([], []) ∧
    parseVdfF 4 ('x' :: ['y']) [] [] = parseVdfF 3 ['y'] [] [] :=
  ⟨parser_total_and_lenient.1 ['a', 'b'] 3 9 [] [] (by decide) (by decide),
   parser_total_and_lenient.2.1 3 ['a'] [] [],
   parser_total_and_lenient.2.2.1 3 ['x', 'y'] [] [] (by decide),
   parser_total_and_lenient.2.2.2 3 'x' ['y'] [] [] (by decide) (by decide)
     (by decide) (by decide) (by decide)⟩

theorem skipWs_ws_append (w : List Char) (h : wsOnly w = true)
    (l : List Char) : skipWs (w ++ l) = skipWs l := by
  induction w with
  | nil => rfl
  | cons c r ih =>
    simp only [wsOnly, List.all_cons, Bool.and_eq_true] at h
    simp only [List.cons_append, skipWs, h.1, if_true]
    exact ih (by simpa [wsOnly] using h.2)

theorem skipWs_ws_nil (w : List Char) (h : wsOnly w = true) : skipWs w = [] := by
  have := skipWs_ws_append w h []
  simpa using this

theorem readTok_append_quote (k : List Char) (h : noQuote k = true)
    (r : List Char) : readTok (k ++ '"' :: r) = (k, r) := by
  induction k with
  | nil => simp [readTok]
  | cons c kt ih =>
    simp only [noQuote, List.all_cons, Bool.and_eq_true] at h
    have hc : ¬(c = '"') := by simpa using h.1
    simp only [List.cons_append, readTok, if_neg hc]
    simp [List.append_eq, ih (by simpa [noQuote] using h.2)]

theorem readTok_append_quote_fst (k : List Char) (h : noQuote k = true)
    (r : List Char) : (readTok (k ++ '"' :: r)).1 = k := by
  rw [readTok_append_quote k h r]

theorem readTok_append_quote_snd (k : List Char) (h : noQuote k = true)
    (r : List Char) : (readTok (k ++ '"' :: r)).2 = r := by
  rw [readTok_append_quote k h r]

theorem parse_render_brace (d : VdfDoc) :
    ∀ (m : VdfMap) (pfx tl : List Char) (f : Nat), docOk d = true →
      (render d ++ '}' :: tl).length < f →
      parseVdfF f (render d ++ '}' :: tl) m pfx = (specDottedMap m pfx d, tl) := by
  induction d with
  | nil w =>
    intro m pfx tl f hok hf
    simp only [docOk] at hok
    cases f with
    | zero => omega
    | succ f =>
      have hs : skipWs (render (VdfDoc.nil w) ++ '}' :: tl) = '}' :: tl := by
        simp only [render]
        rw [skipWs_ws_append w hok, skipWs_cons_not_ws _ _ (by decide)]
      rw [parseVdfF_succ_cons f _ m pfx '}' tl hs,
        if_neg (by rintro ⟨hc, _⟩; exact absurd hc (by decide)), if_pos rfl]
      simp [specDottedMap]
  | consStr w1 k w2 v rest ih =>
    intro m pfx tl f hok hf
    simp only [docOk, Bool.and_eq_true] at hok
    obtain ⟨⟨⟨⟨h1, h2⟩, h3⟩, h4⟩, h5⟩ := hok
    have htext : render (VdfDoc.consStr w1 k w2 v rest) ++ '}' :: tl =
        w1 ++ '"' :: (k ++ '"' :: (w2 ++ '"' ::
          (v ++ '"' :: (render rest ++ '}' :: tl)))) := by
      simp [render, List.append_assoc]
    have hlen : (render rest ++ '}' :: tl).length + 4 ≤
        (render (VdfDoc.consStr w1 k w2 v rest) ++ '}' :: tl).length := by
      rw [htext]
      simp only [List.length_append, List.length_cons]
      omega
    cases f with
    | zero => omega
    | succ f =>
      have hs : skipWs (render (VdfDoc.consStr w1 k w2 v rest) ++ '}' :: tl) =
          '"' :: (k ++ '"' :: (w2 ++ '"' ::
            (v ++ '"' :: (render rest ++ '}' :: tl)))) := by
        rw [htext, skipWs_ws_append w1 h1, skipWs_cons_not_ws _ _ (by decide)]
      rw [parseVdfF_succ_cons f _ m pfx '"' _ hs,
        if_neg (by rintro ⟨hc, _⟩; exact absurd hc (by decide)),
        if_neg (by decide), if_neg (by decide), if_pos rfl,
        readTok_append_quote_fst k h2, readTok_append_quote_snd k h2,
        skipWs_ws_append w2 h3, skipWs_cons_not_ws _ _ (by decide),
        List.head?_cons, if_pos rfl, List.tail_cons,
        readTok_append_quote_fst v h4, readTok_append_quote_snd v h4]
      simp only [specDottedMap]
      exact ih (mapInsert m (fullKey pfx k) v) pfx tl f h5 (by omega)
  | consObj w1 k w2 sub rest ihsub ihrest =>
    intro m pfx tl f hok hf
    simp only [docOk, Bool.and_eq_true] at hok
    obtain ⟨⟨⟨⟨h1, h2⟩, h3⟩, h4⟩, h5⟩ := hok
    have htext : render (VdfDoc.consObj w1 k w2 sub rest) ++ '}' :: tl =
        w1 ++ '"' :: (k ++ '"' :: (w2 ++ '{' ::
          (render sub ++ '}' :: (render rest ++ '}' :: tl)))) := by
      simp [render, List.append_assoc]
    have hlen : (render sub ++ '}' :: (render rest ++ '}' :: tl)).length + 3 ≤
        (render (VdfDoc.consObj w1 k w2 sub rest) ++ '}' :: tl).length := by
      rw [htext]
      simp only [List.length_append, List.length_cons]
      omega
    have hlen2 : (render rest ++ '}' :: tl).length + 1 ≤
        (render sub ++ '}' :: (render rest ++ '}' :: tl)).length := by
      simp only [List.length_append, List.length_cons]
      omega
    cases f with
    | zero => omega
    | succ f =>
      have hs : skipWs (render (VdfDoc.consObj w1 k w2 sub rest) ++ '}' :: tl) =
          '"' :: (k ++ '"' :: (w2 ++ '{' ::
            (render sub ++ '}' :: (render rest ++ '}' :: tl)))) := by
        rw [htext, skipWs_ws_append w1 h1, skipWs_cons_not_ws _ _ (by decide)]
      rw [parseVdfF_succ_cons f _ m pfx '"' _ hs,
        if_neg (by rintro ⟨hc, _⟩; exact absurd hc (by decide)),
        if_neg (by decide), if_neg (by decide), if_pos rfl,
        readTok_append_quote_fst k h2, readTok_append_quote_snd k h2,
        skipWs_ws_append w2 h3, skipWs_cons_not_ws _ _ (by decide),
        List.head?_cons, if_neg (by decide), if_pos rfl,
        List.tail_cons,
        ihsub m (fullKey pfx k) (render rest ++ '}' :: tl) f h4 (by omega)]
      simp only [specDottedMap]
      exact ihrest (specDottedMap m (fullKey pfx k) sub) pfx tl f h5 (by omega)

theorem parse_render_top (d : VdfDoc) :
    ∀ (m : VdfMap) (pfx : List Char) (f : Nat), docOk d = true →
      (render d).length < f →
      parseVdfF f (render d) m pfx = (specDottedMap m pfx d, []) := by
  induction d with
  | nil w =>
    intro m pfx f hok hf
    simp only [docOk] at hok
    cases f with
    | zero => omega
    | succ f =>
      have hs : skipWs (render (VdfDoc.nil w)) = [] := by
        simp only [render]
        exact skipWs_ws_nil w hok
      rw [parseVdfF_succ_skipNil f _ m pfx hs]
      simp [specDottedMap]
  | consStr w1 k w2 v rest ih =>
    intro m pfx f hok hf
    simp only [docOk, Bool.and_eq_true] at hok
    obtain ⟨⟨⟨⟨h1, h2⟩, h3⟩, h4⟩, h5⟩ := hok
    have htext : render (VdfDoc.consStr w1 k w2 v rest) =
        w1 ++ '"' :: (k ++ '"' :: (w2 ++ '"' :: (v ++ '"' :: render rest))) := by
      simp [render]
    have hlen : (render rest).length + 4 ≤
        (render (VdfDoc.consStr w1 k w2 v rest)).length := by
      rw [htext]
      simp only [List.length_append, List.length_cons]
      omega
    cases f with
    | zero => omega
    | succ f =>
      have hs : skipWs (render (VdfDoc.consStr w1 k w2 v rest)) =
          '"' :: (k ++ '"' :: (w2 ++ '"' :: (v ++ '"' :: render rest))) := by
        rw [htext, skipWs_ws_append w1 h1, skipWs_cons_not_ws _ _ (by decide)]
      rw [parseVdfF_succ_cons f _ m pfx '"' _ hs,
        if_neg (by rintro ⟨hc, _⟩; exact absurd hc (by decide)),
        if_neg (by decide), if_neg (by decide), if_pos rfl,
        readTok_append_quote_fst k h2, readTok_append_quote_snd k h2,
        skipWs_ws_append w2 h3, skipWs_cons_not_ws _ _ (by decide),
        List.head?_cons, if_pos rfl, List.tail_cons,
        readTok_append_quote_fst v h4, readTok_append_quote_snd v h4]
      simp only [specDottedMap]
      exact ih (mapInsert m (fullKey pfx k) v) pfx f h5 (by omega)
  | consObj w1 k w2 sub rest ihsub ihrest =>
    intro m pfx f hok hf
    simp only [docOk, Bool.and_eq_true] at hok
    obtain ⟨⟨⟨⟨h1, h2⟩, h3⟩, h4⟩, h5⟩ := hok
    have htext : render (VdfDoc.consObj w1 k w2 sub rest) =
        w1 ++ '"' :: (k ++ '"' :: (w2 ++ '{' ::
          (render sub ++ '}' :: render rest))) := by
      simp [render]
    have hlen : (render sub ++ '}' :: render rest).length + 3 ≤
        (render (VdfDoc.consObj w1 k w2 sub rest)).length := by
      rw [htext]
      simp only [List.length_append, List.length_cons]
      omega
    have hlen2 : (render rest).length + 1 ≤
        (render sub ++ '}' :: render rest).length := by
      simp only [List.length_append, List.length_cons]
      omega
    cases f with
    | zero => omega
    | succ f =>
      have hs : skipWs (render (VdfDoc.consObj w1 k w2 sub rest)) =
          '"' :: (k ++ '"' :: (w2 ++ '{' ::
            (render sub ++ '}' :: render rest))) := by
        rw [htext, skipWs_ws_append w1 h1, skipWs_cons_not_ws _ _ (by decide)]
      rw [parseVdfF_succ_cons f _ m pfx '"' _ hs,
        if_neg (by rintro ⟨hc, _⟩; exact absurd hc (by decide)),
        if_neg (by decide), if_neg (by decide), if_pos rfl,
        readTok_append_quote_fst k h2, readTok_append_quote_snd k h2,
        skipWs_ws_append w2 h3, skipWs_cons_not_ws _ _ (by decide),
        List.head?_cons, if_neg (by decide), if_pos rfl,
        List.tail_cons,
        parse_render_brace sub m (fullKey pfx k) (render rest) f h4 (by omega)]
      simp only [specDottedMap]
      exact ihrest (specDottedMap m (fullKey pfx k) sub) pfx f h5 (by omega)

theorem mapInsert_overwrite (m : VdfMap) (k v₁ v₂ : List Char) :
    mapInsert (mapInsert m k v₁) k v₂ = mapInsert m k v₂ := by
  induction m with
  | nil => simp [mapInsert]
  | cons p t ih =>
    obtain ⟨k', v'⟩ := p
    by_cases h : k' = k
    · subst h
      simp [mapInsert]
    · simp [mapInsert, h, ih]

/-- C3: parsing a well-formed nested brace/quote document recovers every
quoted value under its '.'-joined dotted key path, and a later occurrence
of the same full key path overwrites the earlier value. -/
theorem parse_vdf_well_formed :
    (∀ d : VdfDoc, docOk d = true →
        parse_vdf (render d) = specDottedMap [] [] d) ∧
    (∀ (m : VdfMap) (k v₁ v₂ : List Char),
        mapInsert (mapInsert m k v₁) k v₂ = mapInsert m k v₂) := by
  constructor
  · intro d hok
    unfold parse_vdf
    rw [parse_render_top d [] [] ((render d).length + 1) hok (Nat.lt_succ_self _)]
  · exact mapInsert_overwrite

/-- The spec's example document
`"AppState"{ "appid" "322170" "installdir" "Geometry Dash" }`. -/
def exDoc : VdfDoc :=
  VdfDoc.consObj [] "AppState".data []
    (VdfDoc.consStr [' '] "appid".data [' '] "322170".data
      (VdfDoc.consStr [' '] "installdir".data [' '] "Geometry Dash".data
        (VdfDoc.nil [' '])))
    (VdfDoc.nil [])

/-- Witness for `parse_vdf_well_formed` at the spec's example document. -/
theorem parse_vdf_well_formed_witness :
    docOk exDoc = true ∧
    render exDoc =
      "\"AppState\"\x7b \"appid\" \"322170\" \"installdir\" \"Geometry Dash\" \x7d".data ∧
    parse_vdf (render exDoc) =
      [("AppState.appid".data, "322170".data),
       ("AppState.installdir".data, "Geometry Dash".data)] :=
  ⟨by decide, by decide, by
    rw [parse_vdf_well_formed.1 exDoc (by decide)]
    decide⟩

theorem findSub_isSome_iff (pat s : List Char) :
    (findSub pat s).isSome = true ↔ pat <:+: s := by
  induction s with
  | nil =>
    simp only [findSub]
    constructor
    · intro h
      split at h
      · next hp =>
        exact (List.isPrefixOf_iff_prefix.mp hp).isInfix
      · simp at h
    · intro h
      have : pat = [] := List.eq_nil_of_infix_nil h
      subst this
      simp
  | cons c t ih =>
    simp only [findSub]
    constructor
    · intro h
      split at h
      · next hp =>
        exact (List.isPrefixOf_iff_prefix.mp hp).isInfix
      · rw [List.infix_cons_iff]
        right
        exact ih.mp (by simpa using h)
    · intro h
      rw [List.infix_cons_iff] at h
      split
      · simp
      · next hp =>
        rcases h with h | h
        · exact absurd (List.isPrefixOf_iff_prefix.mpr h) (by simpa using hp)
        · simpa using ih.mpr h

theorem containsSub_iff (s pat : List Char) :
    containsSub s pat = true ↔ pat <:+: s := by
  unfold containsSub
  exact findSub_isSome_iff pat s

theorem countSub_pos_iff (pat s : List Char) :
    0 < countSub pat s ↔ pat <:+: s := by
  induction s with
  | nil =>
    simp only [countSub]
    constructor
    · intro h
      split at h
      · next hp => exact (List.isPrefixOf_iff_prefix.mp hp).isInfix
      · simp at h
    · intro h
      have : pat = [] := List.eq_nil_of_infix_nil h
      subst this
      simp
  | cons c t ih =>
    simp only [countSub]
    rw [List.infix_cons_iff]
    constructor
    · intro h
      by_cases hp : pat.isPrefixOf (c :: t)
      · exact Or.inl (List.isPrefixOf_iff_prefix.mp hp)
      · rw [if_neg hp] at h
        exact Or.inr (ih.mp (by omega))
    · intro h
      rcases h with h | h
      · rw [if_pos (List.isPrefixOf_iff_prefix.mpr h)]
        omega
      · have := ih.mpr h
        omega

theorem countSub_eq_zero (pat s : List Char) (h : ¬ pat <:+: s) :
    countSub pat s = 0 := by
  by_contra hc
  exact h ((countSub_pos_iff pat s).mp (Nat.pos_of_ne_zero hc))

theorem countSub_anti (p₁ p₂ s : List Char) (h : p₁ <+: p₂) :
    countSub p₂ s ≤ countSub p₁ s := by
  induction s with
  | nil =>
    simp only [countSub]
    split
    · next h2 =>
      rw [if_pos]
      exact List.isPrefixOf_iff_prefix.mpr
        (h.trans (List.isPrefixOf_iff_prefix.mp h2))
    · split <;> omega
  | cons c t ih =>
    simp only [countSub]
    have : (if p₂.isPrefixOf (c :: t) then 1 else 0) ≤
        (if p₁.isPrefixOf (c :: t) then 1 else 0) := by
      split
      · next h2 =>
        rw [if_pos]
        exact List.isPrefixOf_iff_prefix.mpr
          (h.trans (List.isPrefixOf_iff_prefix.mp h2))
      · split <;> omega
    omega

theorem findSub_some_pfx (pat : List Char) :
    ∀ (s : List Char) (i : Nat), findSub pat s = some i → pat <+: s.drop i := by
  intro s
  induction s with
  | nil =>
    intro i h
    simp only [findSub] at h
    split at h
    · next hp =>
      cases h
      exact List.isPrefixOf_iff_prefix.mp hp
    · simp at h
  | cons c t ih =>
    intro i h
    simp only [findSub] at h
    split at h
    · next hp =>
      cases h
      exact List.isPrefixOf_iff_prefix.mp hp
    · rcases Option.map_eq_some'.mp h with ⟨j, hj, rfl⟩
      simpa using ih j hj

theorem findSub_some_min (pat : List Char) :
    ∀ (s : List Char) (i : Nat), findSub pat s = some i →
      ∀ j < i, ¬ pat <+: s.drop j := by
  intro s
  induction s with
  | nil =>
    intro i h j hj
    simp only [findSub] at h
    split at h
    · cases h; omega
    · simp at h
  | cons c t ih =>
    intro i h j hj
    simp only [findSub] at h
    split at h
    · cases h; omega
    · next hp =>
      rcases Option.map_eq_some'.mp h with ⟨j', hj', rfl⟩
      cases j with
      | zero =>
        intro hcon
        exact hp (List.isPrefixOf_iff_prefix.mpr (by simpa using hcon))
      | succ jj =>
        have := ih j' hj' jj (by omega)
        simpa using this

theorem findSub_none_not_pfx (pat : List Char) :
    ∀ (s : List Char), findSub pat s = none → ∀ j, ¬ pat <+: s.drop j := by
  intro s
  induction s with
  | nil =>
    intro h j
    simp only [findSub] at h
    split at h
    · simp at h
    · next hp =>
      intro hcon
      exact hp (List.isPrefixOf_iff_prefix.mpr (by simpa using hcon))
  | cons c t ih =>
    intro h j
    simp only [findSub] at h
    split at h
    · simp at h
    · next hp =>
      have ht : findSub pat t = none := by
        cases hf : findSub pat t
        · rfl
        · rw [hf] at h; simp at h
      cases j with
      | zero =>
        intro hcon
        exact hp (List.isPrefixOf_iff_prefix.mpr (by simpa using hcon))
      | succ jj =>
        simpa using ih ht jj

theorem findSub_le_length (pat : List Char) :
    ∀ (s : List Char) (i : Nat), findSub pat s = some i → i ≤ s.length := by
  intro s
  induction s with
  | nil =>
    intro i h
    simp only [findSub] at h
    split at h
    · cases h; exact Nat.le_refl 0
    · simp at h
  | cons c t ih =>
    intro i h
    simp only [findSub] at h
    split at h
    · cases h; simp
    · rcases Option.map_eq_some'.mp h with ⟨j, hj, rfl⟩
      have := ih j hj
      simp
      omega

theorem prefix_append_left (p a b : List Char) (h : p <+: a ++ b)
    (hlen : p.length ≤ a.length) : p <+: a := by
  obtain ⟨r, hr⟩ := h
  have : (a ++ b).take p.length = a.take p.length :=
    List.take_append_of_le_length hlen
  rw [← hr, List.take_left] at this
  rw [this]
  exact List.take_prefix _ a

theorem prefix_append_split (p w v : List Char) (h : p <+: w ++ v)
    (hw : w.length ≤ p.length) : w <+: p ∧ p.drop w.length <+: v := by
  obtain ⟨r, hr⟩ := h
  constructor
  · have h0 : (p ++ r).take w.length = p.take w.length :=
      List.take_append_of_le_length hw
    rw [hr, List.take_left] at h0
    have h2 := List.take_prefix w.length p
    rw [← h0] at h2
    exact h2
  · have h1 : (p ++ r).drop w.length = p.drop w.length ++ r :=
      List.drop_append_of_le_length hw
    rw [hr, List.drop_left] at h1
    exact ⟨r, h1.symm⟩

theorem suffix_eq_drop (w s : List Char) (h : w <:+ s) :
    w = s.drop (s.length - w.length) := by
  obtain ⟨q, hq⟩ := h
  have hl : s.length - w.length = q.length := by
    rw [← hq]
    simp
  rw [hl, ← hq, List.drop_left]

theorem countSub_append_right (pat u v : List Char)
    (h : ∀ w, w <:+ u → w ≠ [] → ¬ pat <+: (w ++ v)) :
    countSub pat (u ++ v) = countSub pat v := by
  induction u with
  | nil => simp
  | cons c t ih =>
    simp only [List.cons_append, countSub, List.append_eq]
    have hc : ¬ pat.isPrefixOf (c :: (t ++ v)) = true := by
      intro hp
      exact h (c :: t) (List.suffix_refl _) (by simp)
        (by
          rw [List.cons_append]
          exact List.isPrefixOf_iff_prefix.mp hp)
    rw [if_neg hc, ih (fun w hw hne => h w (hw.trans (List.suffix_cons c t)) hne)]
    omega

theorem countSub_append_add (pat x v : List Char) (hne : pat ≠ [])
    (h : ∀ w, w <:+ x → w ≠ [] → w.length < pat.length → ¬ pat <+: (w ++ v)) :
    countSub pat (x ++ v) = countSub pat x + countSub pat v := by
  induction x with
  | nil =>
    cases pat with
    | nil => exact absurd rfl hne
    | cons a q => simp [countSub, List.isPrefixOf]
  | cons c t ih =>
    simp only [List.cons_append, countSub, List.append_eq]
    have heq : (if pat.isPrefixOf (c :: (t ++ v)) then 1 else 0) =
        (if pat.isPrefixOf (c :: t) then 1 else 0) := by
      rcases Nat.lt_or_ge (c :: t).length pat.length with hlen | hlen
      · rw [if_neg, if_neg]
        · intro hp
          have := (List.isPrefixOf_iff_prefix.mp hp).length_le
          simp at this
          simp at hlen
          omega
        · intro hp
          exact h (c :: t) (List.suffix_refl _) (by simp) hlen
            (by
              rw [List.cons_append]
              exact List.isPrefixOf_iff_prefix.mp hp)
      · by_cases hp : pat <+: (c :: t)
        · rw [if_pos, if_pos]
          · exact List.isPrefixOf_iff_prefix.mpr hp
          · rw [List.isPrefixOf_iff_prefix, ← List.cons_append]
            exact hp.trans (List.prefix_append _ _)
        · rw [if_neg, if_neg]
          · intro hb
            exact hp (List.isPrefixOf_iff_prefix.mp hb)
          · intro hb
            have := List.isPrefixOf_iff_prefix.mp hb
            rw [← List.cons_append] at this
            exact hp (prefix_append_left pat (c :: t) v this (by simpa using hlen))
    rw [heq,
      ih (fun w hw hne2 hlen2 => h w (hw.trans (List.suffix_cons c t)) hne2 hlen2)]
    omega

theorem keyPat_len : keyPat.length = 12 := by decide

theorem keyPat_ne_nil : keyPat ≠ [] := by decide

theorem keyPat_prefix_entry : keyPat <+: entryStr := by decide

theorem quote_mem_keyPat : '"' ∈ keyPat := by decide

theorem newline_not_mem_keyPat : '\n' ∉ keyPat := by decide

theorem no_border_entryNl :
    ∀ k < 12, 0 < k → ¬ (keyPat.drop k) <+: (entryStr ++ ['\n']) := by decide

theorem no_border_nlEntryNl :
    ∀ k < 12, 0 < k → ¬ (keyPat.drop k) <+: ('\n' :: (entryStr ++ ['\n'])) := by
  decide

theorem entryNl_sfx_not_pfx :
    ∀ j < 29, 17 < j → ¬ ((entryStr ++ ['\n']).drop j) <+: keyPat := by decide

theorem nlEntryNl_sfx_not_pfx :
    ∀ j < 30, 18 < j → ¬ (('\n' :: (entryStr ++ ['\n'])).drop j) <+: keyPat := by
  decide

theorem countSub_keyPat_entryNl : countSub keyPat (entryStr ++ ['\n']) = 1 := by
  decide

theorem countSub_keyPat_nlEntryNl :
    countSub keyPat ('\n' :: (entryStr ++ ['\n'])) = 1 := by decide

/-- The sixteen characters Rust's `{}`/`{:x}` formatting can emit. -/
def hexCharSet : List Char := "0123456789abcdef".data

theorem hexDigitChar_mem : ∀ d < 16, hexDigitChar d ∈ hexCharSet := by decide

theorem renderBase_subset (b n : Nat) (hb2 : 2 ≤ b) (hb : b ≤ 16) :
    ∀ c ∈ renderBase b n, c ∈ hexCharSet := by
  intro c hc
  unfold renderBase at hc
  split at hc
  · have : c = '0' := by simpa using hc
    subst this
    decide
  · rw [List.mem_reverse] at hc
    rcases List.mem_map.mp hc with ⟨d, hd, rfl⟩
    exact hexDigitChar_mem d (lt_of_lt_of_le (Nat.digits_lt_base hb2 hd) hb)

/-- Everything of the appended block that precedes its entry line. -/
def blockA (ts hts : Nat) : List Char :=
  '\n' :: '\n' :: (sectionStr ++ ' ' :: (renderBase 10 ts ++
    '\n' :: ("#time=".data ++ (renderBase 16 hts ++ ['\n']))))

theorem blockFor_decomp (ts hts : Nat) :
    blockFor ts hts = blockA ts hts ++ (entryStr ++ ['\n']) := by
  simp [blockFor, blockA, List.append_assoc]

theorem quote_not_mem_blockA (ts hts : Nat) : '"' ∉ blockA ts hts := by
  have h10 : '"' ∉ renderBase 10 ts := fun h =>
    absurd (renderBase_subset 10 ts (by omega) (by omega) '"' h) (by decide)
  have h16 : '"' ∉ renderBase 16 hts := fun h =>
    absurd (renderBase_subset 16 hts (by omega) (by omega) '"' h) (by decide)
  intro h
  unfold blockA at h
  rcases List.mem_cons.mp h with h | h
  · exact absurd h (by decide)
  rcases List.mem_cons.mp h with h | h
  · exact absurd h (by decide)
  rcases List.mem_append.mp h with h | h
  · exact absurd h (by decide)
  rcases List.mem_cons.mp h with h | h
  · exact absurd h (by decide)
  rcases List.mem_append.mp h with h | h
  · exact h10 h
  rcases List.mem_cons.mp h with h | h
  · exact absurd h (by decide)
  rcases List.mem_append.mp h with h | h
  · exact absurd h (by decide)
  rcases List.mem_append.mp h with h | h
  · exact h16 h
  · exact absurd h (by decide)

theorem countSub_key_block (ts hts : Nat) :
    countSub keyPat (blockFor ts hts) = 1 := by
  have hB : ∀ w, w <:+ blockA ts hts → w ≠ [] →
      ¬ keyPat <+: (w ++ (entryStr ++ ['\n'])) := by
    intro w hw hne hp
    rcases Nat.lt_or_ge w.length keyPat.length with hlen | hlen
    · obtain ⟨hw1, hw2⟩ := prefix_append_split keyPat w _ hp (Nat.le_of_lt hlen)
      have hwpos : 0 < w.length := List.length_pos.mpr hne
      rw [keyPat_len] at hlen
      exact no_border_entryNl w.length hlen hwpos hw2
    · have hkw : keyPat <+: w := prefix_append_left _ _ _ hp hlen
      exact quote_not_mem_blockA ts hts
        ((hkw.isInfix.trans hw.isInfix).mem quote_mem_keyPat)
  rw [blockFor_decomp ts hts,
    countSub_append_right keyPat (blockA ts hts) _ hB]
  exact countSub_keyPat_entryNl

theorem marker_pos_bound (content : List Char) (s q : Nat)
    (h2 : findSub nlBracket (content.drop s) = some q) :
    s + q + 2 ≤ content.length := by
  have hpre := findSub_some_pfx nlBracket (content.drop s) q h2
  rw [List.drop_drop] at hpre
  have hlen := hpre.length_le
  have h2' : nlBracket.length = 2 := by decide
  rw [h2', List.length_drop] at hlen
  omega

theorem add_entry_eq_marker (content entry : List Char) (p q : Nat)
    (h1 : findSub sectionStr content = some p)
    (h2 : findSub nlBracket (content.drop (p + sectionStr.length)) = some q) :
    add_dll_entry_to_section content sectionStr entry =
      content.take (p + sectionStr.length + q) ++ (entry ++ ['\n']) ++
        content.drop (p + sectionStr.length + q) := by
  have hne : ¬ (p + sectionStr.length + q = content.length) := by
    have := marker_pos_bound content (p + sectionStr.length) q h2
    omega
  unfold add_dll_entry_to_section
  rw [h1]
  simp only [h2]
  rw [if_neg hne]

theorem add_entry_eq_end (content entry : List Char) (p : Nat)
    (h1 : findSub sectionStr content = some p)
    (h2 : findSub nlBracket (content.drop (p + sectionStr.length)) = none) :
    add_dll_entry_to_section content sectionStr entry =
      content ++ ('\n' :: (entry ++ ['\n'])) := by
  unfold add_dll_entry_to_section
  rw [h1]
  simp only [h2]
  simp [List.take_length, List.drop_length]

theorem ensure_eq_of_contains (ts hts : Nat) (content : List Char)
    (h : containsSub content keyPat = true) :
    ensure_dll_override ts hts content = content := by
  unfold ensure_dll_override
  rw [if_pos h]

theorem ensure_eq_append_block (ts hts : Nat) (content : List Char)
    (hk : containsSub content keyPat = false)
    (hs : containsSub content sectionStr = false) :
    ensure_dll_override ts hts content = content ++ blockFor ts hts := by
  unfold ensure_dll_override
  rw [if_neg (by simp [hk]), if_pos hs]
  rfl

theorem ensure_eq_add_entry (ts hts : Nat) (content : List Char)
    (hk : containsSub content keyPat = false)
    (hs : containsSub content sectionStr = true) :
    ensure_dll_override ts hts content =
      add_dll_entry_to_section content sectionStr entryStr := by
  unfold ensure_dll_override
  rw [if_neg (by simp [hk]), if_neg (by simp [hs])]

/-- After any run of `ensure_dll_override` on a document free of the
override key, the result holds exactly one occurrence of the key. -/
theorem ensure_count_key (ts hts : Nat) (content : List Char)
    (hk : containsSub content keyPat = false) :
    countSub keyPat (ensure_dll_override ts hts content) = 1 := by
  have hkinf : ¬ keyPat <:+: content := by
    intro h
    have h2 := (containsSub_iff content keyPat).mpr h
    rw [hk] at h2
    simp at h2
  cases hsec : containsSub content sectionStr with
  | false =>
    rw [ensure_eq_append_block ts hts content hk hsec]
    have hB : ∀ w, w <:+ content → w ≠ [] →
        ¬ keyPat <+: (w ++ blockFor ts hts) := by
      intro w hw hne hp
      rcases Nat.lt_or_ge w.length keyPat.length with hlen | hlen
      · obtain ⟨hw1, hw2⟩ := prefix_append_split keyPat w _ hp (Nat.le_of_lt hlen)
        have hdrop : keyPat.drop w.length =
            keyPat[w.length] :: keyPat.drop (w.length + 1) :=
          List.drop_eq_getElem_cons hlen
        rw [hdrop] at hw2
        unfold blockFor at hw2
        have h0 : keyPat[w.length] = '\n' := (List.cons_prefix_cons.mp hw2).1
        exact newline_not_mem_keyPat (h0 ▸ List.getElem_mem hlen)
      · have hkw := prefix_append_left _ _ _ hp hlen
        exact hkinf (hkw.isInfix.trans hw.isInfix)
    rw [countSub_append_right keyPat content _ hB]
    exact countSub_key_block ts hts
  | true =>
    rw [ensure_eq_add_entry ts hts content hk hsec]
    have hsome : (findSub sectionStr content).isSome = true := hsec
    obtain ⟨p, hp⟩ := Option.isSome_iff_exists.mp hsome
    cases hq : findSub nlBracket (content.drop (p + sectionStr.length)) with
    | some q =>
      rw [add_entry_eq_marker content entryStr p q hp hq, List.append_assoc]
      have hB1 : ∀ w, w <:+ content.take (p + sectionStr.length + q) →
          w ≠ [] → ¬ keyPat <+:
            (w ++ ((entryStr ++ ['\n']) ++
              content.drop (p + sectionStr.length + q))) := by
        intro w hw hne hp2
        rcases Nat.lt_or_ge w.length keyPat.length with hlen | hlen
        · obtain ⟨hw1, hw2⟩ :=
            prefix_append_split keyPat w _ hp2 (Nat.le_of_lt hlen)
          have hlen2 : (keyPat.drop w.length).length ≤
              (entryStr ++ ['\n']).length := by
            rw [List.length_drop, keyPat_len]
            have : (entryStr ++ ['\n']).length = 29 := by decide
            omega
          have hw3 := prefix_append_left _ _ _ hw2 hlen2
          have hwpos : 0 < w.length := List.length_pos.mpr hne
          rw [keyPat_len] at hlen
          exact no_border_entryNl w.length hlen hwpos hw3
        · have hkw := prefix_append_left _ _ _ hp2 hlen
          exact hkinf
            (hkw.isInfix.trans (hw.isInfix.trans
              (List.take_prefix _ content).isInfix))
      rw [countSub_append_right keyPat _ _ hB1]
      have hB2 : ∀ w, w <:+ (entryStr ++ ['\n']) → w ≠ [] →
          w.length < keyPat.length →
          ¬ keyPat <+: (w ++ content.drop (p + sectionStr.length + q)) := by
        intro w hw hne hwlen hp2
        obtain ⟨hw1, _⟩ :=
          prefix_append_split keyPat w _ hp2 (Nat.le_of_lt hwlen)
        have hsl : (entryStr ++ ['\n']).length = 29 := by decide
        have hweq := suffix_eq_drop w _ hw
        rw [hsl] at hweq
        have hwpos : 0 < w.length := List.length_pos.mpr hne
        have hwub : w.length ≤ 29 := by
          have := hw.length_le
          rw [hsl] at this
          exact this
        rw [keyPat_len] at hwlen
        refine entryNl_sfx_not_pfx (29 - w.length) (by omega) (by omega) ?_
        rw [← hweq]
        exact hw1
      rw [countSub_append_add keyPat (entryStr ++ ['\n']) _ keyPat_ne_nil hB2,
        countSub_keyPat_entryNl,
        countSub_eq_zero keyPat _
          (fun h => hkinf (h.trans (List.drop_suffix _ content).isInfix))]
    | none =>
      rw [add_entry_eq_end content entryStr p hp hq]
      have hB : ∀ w, w <:+ content → w ≠ [] →
          ¬ keyPat <+: (w ++ ('\n' :: (entryStr ++ ['\n']))) := by
        intro w hw hne hp2
        rcases Nat.lt_or_ge w.length keyPat.length with hlen | hlen
        · obtain ⟨hw1, hw2⟩ :=
            prefix_append_split keyPat w _ hp2 (Nat.le_of_lt hlen)
          have hwpos : 0 < w.length := List.length_pos.mpr hne
          rw [keyPat_len] at hlen
          exact no_border_nlEntryNl w.length hlen hwpos hw2
        · have hkw := prefix_append_left _ _ _ hp2 hlen
          exact hkinf (hkw.isInfix.trans hw.isInfix)
      rw [countSub_append_right keyPat content _ hB]
      exact countSub_keyPat_nlEntryNl

/-- C1: `ensure_dll_override` is idempotent — a second run (with any
other pair of clock reads) returns its input unchanged, and a document
that already contains the override entry key anywhere is returned
unchanged. -/
theorem ensure_dll_override_idempotent :
    (∀ (ts hts ts' hts' : Nat) (x : List Char),
        ensure_dll_override ts' hts' (ensure_dll_override ts hts x) =
          ensure_dll_override ts hts x) ∧
    (∀ (ts hts : Nat) (x : List Char), containsSub x keyPat = true →
        ensure_dll_override ts hts x = x) := by
  constructor
  · intro ts hts ts' hts' x
    cases hk : containsSub x keyPat with
    | true =>
      rw [ensure_eq_of_contains ts hts x hk,
        ensure_eq_of_contains ts' hts' x hk]
    | false =>
      have h1 := ensure_count_key ts hts x hk
      have h2 : keyPat <:+: ensure_dll_override ts hts x :=
        (countSub_pos_iff _ _).mp (by omega)
      exact ensure_eq_of_contains ts' hts' _ ((containsSub_iff _ _).mpr h2)
  · exact fun ts hts x h => ensure_eq_of_contains ts hts x h

/-- Witness for `ensure_dll_override_idempotent` at concrete documents
(the two runs use four distinct clock reads). -/
theorem ensure_dll_override_idempotent_witness :
    ensure_dll_override 2 3 (ensure_dll_override 0 1 []) =
      ensure_dll_override 0 1 [] ∧
    ensure_dll_override 0 0 entryStr = entryStr :=
  ⟨ensure_dll_override_idempotent.1 0 1 2 3 [],
   ensure_dll_override_idempotent.2 0 0 entryStr (by decide)⟩

/-- C2: for a document holding at most one occurrence of the override
entry, the patched document still holds at most one occurrence — the
patcher never introduces a second entry. -/
theorem ensure_no_duplicate_entry (ts hts : Nat) (content : List Char)
    (h : countSub entryStr content ≤ 1) :
    countSub entryStr (ensure_dll_override ts hts content) ≤ 1 := by
  cases hk : containsSub content keyPat with
  | true =>
    rw [ensure_eq_of_contains ts hts content hk]
    exact h
  | false =>
    have h1 := ensure_count_key ts hts content hk
    have h2 := countSub_anti keyPat entryStr
      (ensure_dll_override ts hts content) keyPat_prefix_entry
    omega

/-- Witness for `ensure_no_duplicate_entry` at a concrete document. -/
theorem ensure_no_duplicate_entry_witness :
    countSub entryStr [] ≤ 1 ∧
    countSub entryStr (ensure_dll_override 0 1 []) ≤ 1 :=
  ⟨by decide, ensure_no_duplicate_entry 0 1 [] (by decide)⟩

theorem hexDigitVal_hexDigitChar : ∀ d < 16, hexDigitVal (hexDigitChar d) = d := by
  decide

/-- Reading a printed base-`b` numeral back gives the number that was
printed: the printed digits denote that number. -/
theorem decode_renderBase (b n : Nat) (hb2 : 2 ≤ b) (hb : b ≤ 16) :
    decodeBase b (renderBase b n) = n := by
  unfold renderBase decodeBase
  split
  · next h =>
    subst h
    simp only [List.map_cons, List.map_nil, List.reverse_cons, List.reverse_nil,
      List.nil_append, Nat.ofDigits_singleton]
    decide
  · next h =>
    rw [List.map_reverse, List.reverse_reverse, List.map_map]
    have hcongr : (Nat.digits b n).map (hexDigitVal ∘ hexDigitChar) =
        (Nat.digits b n).map id := by
      apply List.map_congr_left
      intro d hd
      exact hexDigitVal_hexDigitChar d
        (lt_of_lt_of_le (Nat.digits_lt_base hb2 hd) hb)
    rw [hcongr, List.map_id, Nat.ofDigits_digits]

/-- Counterexample to C8 as stated: the decimal and hexadecimal
timestamps of the synthesized section come from two separate
`SystemTime::now()` reads (`current_timestamp()` once for the decimal
field, and again inside `current_hex_timestamp()` for the hex field), so
nothing ties them together.  In a run where the clock advances between
the two reads — here the first read returns `0` and the second `1` —
the appended block carries a decimal field denoting instant `0` and a
hexadecimal field denoting instant `1`: they do not denote the same
instant. -/
theorem section_timestamps_not_same_instant :
    containsSub [] keyPat = false ∧ containsSub [] sectionStr = false ∧
    ensure_dll_override 0 1 [] =
      [] ++ ('\n' :: '\n' :: (sectionStr ++ ' ' :: (renderBase 10 0 ++
        '\n' :: ("#time=".data ++ (renderBase 16 1 ++
          '\n' :: (entryStr ++ ['\n'])))))) ∧
    decodeBase 10 (renderBase 10 0) = 0 ∧
    decodeBase 16 (renderBase 16 1) = 1 ∧
    decodeBase 10 (renderBase 10 0) ≠ decodeBase 16 (renderBase 16 1) := by
  have h0 : decodeBase 10 (renderBase 10 0) = 0 :=
    decode_renderBase 10 0 (by omega) (by omega)
  have h1 : decodeBase 16 (renderBase 16 1) = 1 :=
    decode_renderBase 16 1 (by omega) (by omega)
  refine ⟨by decide, by decide,
    ensure_eq_append_block 0 1 [] (by decide) (by decide), h0, h1, ?_⟩
  rw [h0, h1]
  omega

/-- C8 (amended): on a document holding neither the override entry key
nor the section header, the patcher appends exactly one block — a
blank-line separator, the section header with the decimal rendering of
the first clock read `ts`, a comment line with the hexadecimal rendering
of the second clock read `hts`, and exactly one entry line.  Each field
decodes to its own clock read, so the two fields denote the same instant
exactly when the two independent `SystemTime::now()` reads returned the
same second — which the code does not enforce. -/
theorem ensure_synthesizes_section (ts hts : Nat) (content : List Char)
    (hk : containsSub content keyPat = false)
    (hs : containsSub content sectionStr = false) :
    ensure_dll_override ts hts content =
      content ++ ('\n' :: '\n' :: (sectionStr ++ ' ' :: (renderBase 10 ts ++
        '\n' :: ("#time=".data ++ (renderBase 16 hts ++
          '\n' :: (entryStr ++ ['\n'])))))) ∧
    decodeBase 10 (renderBase 10 ts) = ts ∧
    decodeBase 16 (renderBase 16 hts) = hts ∧
    (decodeBase 10 (renderBase 10 ts) = decodeBase 16 (renderBase 16 hts) ↔
      ts = hts) ∧
    countSub entryStr (ensure_dll_override ts hts content) = 1 := by
  have hd10 : decodeBase 10 (renderBase 10 ts) = ts :=
    decode_renderBase 10 ts (by omega) (by omega)
  have hd16 : decodeBase 16 (renderBase 16 hts) = hts :=
    decode_renderBase 16 hts (by omega) (by omega)
  refine ⟨ensure_eq_append_block ts hts content hk hs, hd10, hd16,
    by rw [hd10, hd16], ?_⟩
  have hle : countSub entryStr (ensure_dll_override ts hts content) ≤
      countSub keyPat (ensure_dll_override ts hts content) :=
    countSub_anti _ _ _ keyPat_prefix_entry
  have h1 := ensure_count_key ts hts content hk
  have hinf : entryStr <:+: ensure_dll_override ts hts content := by
    rw [ensure_eq_append_block ts hts content hk hs, blockFor_decomp]
    have h2 : entryStr <:+: (entryStr ++ ['\n']) := ⟨[], ['\n'], by simp⟩
    have h3 : (entryStr ++ ['\n']) <:+
        (content ++ (blockA ts hts ++ (entryStr ++ ['\n']))) :=
      ⟨content ++ blockA ts hts, by simp [List.append_assoc]⟩
    exact h2.trans h3.isInfix
  have hpos := (countSub_pos_iff entryStr _).mpr hinf
  omega

/-- Witness for `ensure_synthesizes_section` at a concrete input with two
distinct clock reads. -/
theorem ensure_synthesizes_section_witness :
    containsSub [] keyPat = false ∧ containsSub [] sectionStr = false ∧
    (ensure_dll_override 7 9 [] =
      [] ++ ('\n' :: '\n' :: (sectionStr ++ ' ' :: (renderBase 10 7 ++
        '\n' :: ("#time=".data ++ (renderBase 16 9 ++
          '\n' :: (entryStr ++ ['\n'])))))) ∧
    decodeBase 10 (renderBase 10 7) = 7 ∧
    decodeBase 16 (renderBase 16 9) = 9 ∧
    (decodeBase 10 (renderBase 10 7) = decodeBase 16 (renderBase 16 9) ↔
      7 = 9) ∧
    countSub entryStr (ensure_dll_override 7 9 []) = 1) :=
  ⟨by decide, by decide,
    ensure_synthesizes_section 7 9 [] (by decide) (by decide)⟩

/-- C7: on a document holding the section header but not the override
entry key, the patcher splices the entry line in at a single position `i`
lying strictly after the section header; `i` is the position of the first
`"\n["` marker after the header (the entry goes immediately before the
next section), or end of document when no such marker follows; every
original character is kept, in order, around the insertion. -/
theorem ensure_inserts_before_next_section (ts hts : Nat)
    (content : List Char)
    (hk : containsSub content keyPat = false)
    (hs : containsSub content sectionStr = true) :
    ∃ p i, findSub sectionStr content = some p ∧
      p + sectionStr.length ≤ i ∧ i ≤ content.length ∧
      ensure_dll_override ts hts content =
        content.take i ++ ((if i = content.length then
          '\n' :: (entryStr ++ ['\n']) else entryStr ++ ['\n']) ++
          content.drop i) ∧
      ((nlBracket <+: content.drop i ∧
          ∀ j, p + sectionStr.length ≤ j → j < i →
            ¬ nlBracket <+: content.drop j) ∨
        (i = content.length ∧
          ∀ j, p + sectionStr.length ≤ j → ¬ nlBracket <+: content.drop j)) := by
  have hsome : (findSub sectionStr content).isSome = true := hs
  obtain ⟨p, hp⟩ := Option.isSome_iff_exists.mp hsome
  have hplen : p + sectionStr.length ≤ content.length := by
    have h1 := (findSub_some_pfx sectionStr content p hp).length_le
    rw [List.length_drop] at h1
    have h2 := findSub_le_length sectionStr content p hp
    omega
  cases hq : findSub nlBracket (content.drop (p + sectionStr.length)) with
  | some q =>
    have hbound := marker_pos_bound content (p + sectionStr.length) q hq
    refine ⟨p, p + sectionStr.length + q, hp, by omega, by omega, ?_,
      Or.inl ⟨?_, ?_⟩⟩
    · rw [ensure_eq_add_entry ts hts content hk hs,
        add_entry_eq_marker content entryStr p q hp hq,
        if_neg (by omega), List.append_assoc]
    · have hpre := findSub_some_pfx nlBracket _ q hq
      rw [List.drop_drop] at hpre
      exact hpre
    · intro j hj1 hj2
      have hmin := findSub_some_min nlBracket _ q hq (j - (p + sectionStr.length))
        (by omega)
      rw [List.drop_drop] at hmin
      have : p + sectionStr.length + (j - (p + sectionStr.length)) = j := by
        omega
      rw [this] at hmin
      exact hmin
  | none =>
    refine ⟨p, content.length, hp, by omega, Nat.le_refl _, ?_,
      Or.inr ⟨rfl, ?_⟩⟩
    · rw [ensure_eq_add_entry ts hts content hk hs,
        add_entry_eq_end content entryStr p hp hq, if_pos rfl,
        List.take_length, List.drop_length, List.append_nil]
    · intro j hj
      have hnone := findSub_none_not_pfx nlBracket _ hq
        (j - (p + sectionStr.length))
      rw [List.drop_drop] at hnone
      have : p + sectionStr.length + (j - (p + sectionStr.length)) = j := by
        omega
      rw [this] at hnone
      exact hnone

/-- Witness for `ensure_inserts_before_next_section` at a concrete
registry document with a following section. -/
theorem ensure_inserts_before_next_section_witness :
    containsSub
      "[Software\\\\Wine\\\\DllOverrides] 123\n\"a\"=\"b\"\n\n[Other] 5\n".data
      keyPat = false ∧
    containsSub
      "[Software\\\\Wine\\\\DllOverrides] 123\n\"a\"=\"b\"\n\n[Other] 5\n".data
      sectionStr = true ∧
    (∃ p i, findSub sectionStr
        "[Software\\\\Wine\\\\DllOverrides] 123\n\"a\"=\"b\"\n\n[Other] 5\n".data
          = some p ∧
      p + sectionStr.length ≤ i ∧
      i ≤ "[Software\\\\Wine\\\\DllOverrides] 123\n\"a\"=\"b\"\n\n[Other] 5\n".data.length ∧
      ensure_dll_override 0 0
          "[Software\\\\Wine\\\\DllOverrides] 123\n\"a\"=\"b\"\n\n[Other] 5\n".data =
        "[Software\\\\Wine\\\\DllOverrides] 123\n\"a\"=\"b\"\n\n[Other] 5\n".data.take i ++
          ((if i = "[Software\\\\Wine\\\\DllOverrides] 123\n\"a\"=\"b\"\n\n[Other] 5\n".data.length then
            '\n' :: (entryStr ++ ['\n']) else entryStr ++ ['\n']) ++
          "[Software\\\\Wine\\\\DllOverrides] 123\n\"a\"=\"b\"\n\n[Other] 5\n".data.drop i) ∧
      ((nlBracket <+: "[Software\\\\Wine\\\\DllOverrides] 123\n\"a\"=\"b\"\n\n[Other] 5\n".data.drop i ∧
          ∀ j, p + sectionStr.length ≤ j → j < i →
            ¬ nlBracket <+: "[Software\\\\Wine\\\\DllOverrides] 123\n\"a\"=\"b\"\n\n[Other] 5\n".data.drop j) ∨
        (i = "[Software\\\\Wine\\\\DllOverrides] 123\n\"a\"=\"b\"\n\n[Other] 5\n".data.length ∧
          ∀ j, p + sectionStr.length ≤ j →
            ¬ nlBracket <+: "[Software\\\\Wine\\\\DllOverrides] 123\n\"a\"=\"b\"\n\n[Other] 5\n".data.drop j))) :=
  ⟨by decide, by decide,
    ensure_inserts_before_next_section 0 0
      "[Software\\\\Wine\\\\DllOverrides] 123\n\"a\"=\"b\"\n\n[Other] 5\n".data
      (by decide) (by decide)⟩

/-- Counterexample to C9 as stated: for a stored document that already
contains the override entry key, `patch_wine_registry` still performs the
`fs::write` call — the write-back is unconditional whenever the file
exists (the Rust code calls `fs::write` outside any changed-content
check), merely writing back identical content. -/
theorem patch_writes_even_when_unchanged :
    containsSub entryStr keyPat = true ∧
    patch_wine_registry 0 0 (some entryStr) =
      RegPatchResult.written entryStr ∧
    patchWrites 0 0 (some entryStr) = true := by
  refine ⟨by decide, ?_, by decide⟩
  have h := ensure_eq_of_contains 0 0 entryStr (by decide)
  show RegPatchResult.written (ensure_dll_override 0 0 entryStr) =
    RegPatchResult.written entryStr
  rw [h]

/-- C9 amended: `patch_wine_registry` performs the write-back whenever
the file exists; for content already containing the override entry key
the written content equals the original, so the stored document's value
is unchanged even though a write occurs. -/
theorem patch_always_writes (ts hts : Nat) (c : List Char)
    (h : containsSub c keyPat = true) :
    patch_wine_registry ts hts (some c) = RegPatchResult.written c ∧
    patchWrites ts hts (some c) = true := by
  have he := ensure_eq_of_contains ts hts c h
  constructor
  · show RegPatchResult.written (ensure_dll_override ts hts c) =
      RegPatchResult.written c
    rw [he]
  · rfl

/-- Witness for `patch_always_writes` at a concrete document. -/
theorem patch_always_writes_witness :
    containsSub entryStr keyPat = true ∧
    (patch_wine_registry 3 4 (some entryStr) =
        RegPatchResult.written entryStr ∧
     patchWrites 3 4 (some entryStr) = true) :=
  ⟨by decide, patch_always_writes 3 4 entryStr (by decide)⟩

theorem dedupFirst_not_mem_seen :
    ∀ (l seen : List (List Char)) (x : List Char),
      x ∈ dedupFirst seen l → x ∉ seen := by
  intro l
  induction l with
  | nil =>
    intro seen x h
    simp [dedupFirst] at h
  | cons p t ih =>
    intro seen x h
    simp only [dedupFirst] at h
    split at h
    · exact ih seen x h
    · next hp =>
      rcases List.mem_cons.mp h with rfl | h2
      · exact hp
      · intro hx
        exact ih (p :: seen) x h2 (List.mem_cons_of_mem p hx)

theorem dedupFirst_nodup :
    ∀ (l seen : List (List Char)), (dedupFirst seen l).Nodup := by
  intro l
  induction l with
  | nil =>
    intro seen
    simp [dedupFirst]
  | cons p t ih =>
    intro seen
    simp only [dedupFirst]
    split
    · exact ih seen
    · refine List.nodup_cons.mpr ⟨?_, ih (p :: seen)⟩
      intro hmem
      exact dedupFirst_not_mem_seen t (p :: seen) p hmem
        (List.mem_cons_self p seen)

theorem foldl_append_extends
    (f : List (List Char) → (List Char × List Char) → List (List Char))
    (hf : ∀ acc kv, f acc kv = acc ∨ ∃ x, f acc kv = acc ++ [x]) :
    ∀ (kvs : VdfMap) (acc : List (List Char)),
      ∃ s, kvs.foldl f acc = acc ++ s := by
  intro kvs
  induction kvs with
  | nil =>
    intro acc
    exact ⟨[], by simp⟩
  | cons kv t ih =>
    intro acc
    rcases hf acc kv with h | ⟨x, h⟩
    · rcases ih (f acc kv) with ⟨s, hs⟩
      exact ⟨s, by rw [List.foldl_cons, hs, h]⟩
    · rcases ih (f acc kv) with ⟨s, hs⟩
      exact ⟨[x] ++ s, by rw [List.foldl_cons, hs, h, List.append_assoc]⟩

/-- C6: whenever a root is found, the enumerated library list begins with
the primary root's `steamapps` subdirectory — whatever the state of the
index manifest — and contains no duplicate path strings, keeping the
first occurrence of each path. -/
theorem library_folders_head_nodup (env : Env) (root : List Char) :
    (initialize_library_folders env (some root)).head? =
      some (pjoin root "steamapps".data) ∧
    (initialize_library_folders env (some root)).Nodup := by
  have hbody : initialize_library_folders env (some root) =
      dedupFirst []
        (if env.pathExists
            (pjoin (pjoin root "steamapps".data) "libraryfolders.vdf".data) then
          (parse_vdf_file env
              (pjoin (pjoin root "steamapps".data) "libraryfolders.vdf".data)).foldl
            (fun acc kv =>
              if (("libraryfolders.".data).isPrefixOf kv.1
                    && containsSub kv.1 ".path".data)
                  || containsSub kv.1 ".path".data then
                if env.pathExists (pjoin kv.2 "steamapps".data) then
                  acc ++ [pjoin kv.2 "steamapps".data]
                else acc
              else acc)
            [pjoin root "steamapps".data]
        else [pjoin root "steamapps".data]) := rfl
  obtain ⟨s, hs⟩ : ∃ s,
      (if env.pathExists
          (pjoin (pjoin root "steamapps".data) "libraryfolders.vdf".data) then
        (parse_vdf_file env
            (pjoin (pjoin root "steamapps".data) "libraryfolders.vdf".data)).foldl
          (fun acc kv =>
            if (("libraryfolders.".data).isPrefixOf kv.1
                  && containsSub kv.1 ".path".data)
                || containsSub kv.1 ".path".data then
              if env.pathExists (pjoin kv.2 "steamapps".data) then
                acc ++ [pjoin kv.2 "steamapps".data]
              else acc
            else acc)
          [pjoin root "steamapps".data]
      else [pjoin root "steamapps".data]) =
        [pjoin root "steamapps".data] ++ s := by
    split
    · apply foldl_append_extends
      intro acc kv
      dsimp only
      split
      · split
        · exact Or.inr ⟨_, rfl⟩
        · exact Or.inl rfl
      · exact Or.inl rfl
    · exact ⟨[], by simp⟩
  rw [hbody, hs, List.singleton_append]
  constructor
  · simp [dedupFirst]
  · exact dedupFirst_nodup _ _

/-- C5: `find_game_by_appid` scans libraries in order.  A library whose
manifest is absent, whose manifest lacks the install-directory key, or
whose listed install directory does not exist under `common`, is skipped
and scanning continues; the first library whose manifest exists, lists an
install directory, and whose `common` path exists, is returned at once —
no further library can influence the result. -/
theorem find_game_scan_order :
    (∀ (env : Env) (app_id library_path : List Char)
        (rest : List (List Char)),
      (env.pathExists
          (pjoin library_path ("appmanifest_".data ++ (app_id ++ ".acf".data)))
            = false ∨
        mapLookup (parse_vdf_file env
            (pjoin library_path ("appmanifest_".data ++ (app_id ++ ".acf".data))))
          "AppState.installdir".data = none ∨
        (∃ d, mapLookup (parse_vdf_file env
            (pjoin library_path ("appmanifest_".data ++ (app_id ++ ".acf".data))))
          "AppState.installdir".data = some d ∧
          env.pathExists (pjoin (pjoin library_path "common".data) d) = false)) →
      find_game_by_appid env (library_path :: rest) app_id =
        find_game_by_appid env rest app_id) ∧
    (∀ (env : Env) (app_id library_path : List Char)
        (rest : List (List Char)) (d : List Char),
      env.pathExists
          (pjoin library_path ("appmanifest_".data ++ (app_id ++ ".acf".data)))
            = true →
      mapLookup (parse_vdf_file env
          (pjoin library_path ("appmanifest_".data ++ (app_id ++ ".acf".data))))
        "AppState.installdir".data = some d →
      env.pathExists (pjoin (pjoin library_path "common".data) d) = true →
      find_game_by_appid env (library_path :: rest) app_id =
        some (pjoin (pjoin library_path "common".data) d, library_path)) := by
  constructor
  · intro env app_id lib rest h
    by_cases hacf : env.pathExists
        (pjoin lib ("appmanifest_".data ++ (app_id ++ ".acf".data))) = true
    · cases hlook : mapLookup (parse_vdf_file env
          (pjoin lib ("appmanifest_".data ++ (app_id ++ ".acf".data))))
          "AppState.installdir".data with
      | none =>
        simp only [find_game_by_appid]
        rw [hacf, if_pos rfl, hlook]
      | some d =>
        have hgame : env.pathExists (pjoin (pjoin lib "common".data) d)
            = false := by
          rcases h with h | h | ⟨d', hd', hg⟩
          · rw [h] at hacf
            cases hacf
          · rw [hlook] at h
            cases h
          · rw [hlook] at hd'
            injection hd' with hd''
            rw [hd'']
            exact hg
        simp only [find_game_by_appid]
        rw [hacf, if_pos rfl, hlook]
        dsimp only
        rw [hgame, if_neg (by decide)]
    · have hacf' : env.pathExists
          (pjoin lib ("appmanifest_".data ++ (app_id ++ ".acf".data)))
            = false := by
        simp at hacf
        exact hacf
      simp only [find_game_by_appid]
      rw [hacf', if_neg (by decide)]
  · intro env app_id lib rest d hacf hlook hgame
    simp only [find_game_by_appid]
    rw [hacf, if_pos rfl, hlook]
    dsimp only
    rw [hgame, if_pos rfl]

/-- Concrete two-library filesystem for the scan-order witness: library
`/A` has a manifest whose installdir `Bad` does not exist on disk;
library `/B` has a manifest whose installdir `GD` exists. -/
def envW : Env :=
  ⟨fun p => decide (p = "/A/appmanifest_322170.acf".data) ||
      decide (p = "/B/appmanifest_322170.acf".data) ||
      decide (p = "/B/common/GD".data),
   fun p =>
    if p = "/A/appmanifest_322170.acf".data then
      some "\"AppState.installdir\" \"Bad\"".data
    else if p = "/B/appmanifest_322170.acf".data then
      some "\"AppState.installdir\" \"GD\"".data
    else none⟩

/-- Witness for `find_game_scan_order`: the first library lists an
install directory that is missing on disk, so the second library wins. -/
theorem find_game_scan_order_witness :
    envW.pathExists
      (pjoin "/A".data ("appmanifest_".data ++ ("322170".data ++ ".acf".data)))
        = true ∧
    envW.pathExists (pjoin (pjoin "/A".data "common".data) "Bad".data)
        = false ∧
    find_game_by_appid envW ["/A".data, "/B".data] "322170".data =
      some (pjoin (pjoin "/B".data "common".data) "GD".data, "/B".data) :=
  ⟨by decide, by decide,
    (find_game_scan_order.1 envW "322170".data "/A".data ["/B".data]
        (Or.inr (Or.inr ⟨"Bad".data, by decide, by decide⟩))).trans
      (find_game_scan_order.2 envW "322170".data "/B".data [] "GD".data
        (by decide) (by decide) (by decide))⟩

/-- C10: with no Steam root found, the library list is empty, and for
every application identifier the install lookup, the prefix lookup, and
the composed lookup all report absence (`found = false`, every optional
path `none`) without any failure. -/
theorem no_root_all_absent (env : Env) (app_id : List Char) :
    initialize_library_folders env none = [] ∧
    find_game_by_appid env (initialize_library_folders env none) app_id
        = none ∧
    find_proton_prefix env (initialize_library_folders env none) app_id none
        = none ∧
    get_game_info env (initialize_library_folders env none) app_id =
      ⟨app_id, none, none, none, false⟩ :=
  ⟨rfl, rfl, rfl, rfl⟩
